import Mathlib

/-!
Verification of headlineGPT's data pipeline (src/data_utils.py) and training
loop (src/train.py) against its natural-language specification.

The Python code is shallowly embedded: tensors of token ids become `List ℕ`,
float losses and learning rates become `ℚ` (exact rational arithmetic in place
of IEEE floats), the stateful training loop becomes explicit state passing
over a `TrainState` record, and Python dict lookups that may raise `KeyError`
return `Option`.
-/

namespace HGPT

/-! ### BlockPairDataset (src/data_utils.py, lines 77-124)

`data` is the token-id stream, `nl` the compact id of the EOS token
(`stot("<|endoftext|>")` in the source), `T` the block size.
-/

/-- Embeds `nl_positions = torch.where(self.data == nl_id)[0]`: the indices
of all EOS tokens in the stream, in increasing order. -/
def nlPositions (data : List ℕ) (nl : ℕ) : List ℕ :=
  (List.range data.length).filter (fun p => data.getD p 0 == nl)

/-- Embeds `self.starts = (nl_positions[:-1] + 1)`: one past each EOS
position, the final EOS excluded. -/
def starts (data : List ℕ) (nl : ℕ) : List ℕ :=
  (nlPositions data nl).dropLast.map (· + 1)

/-- Embeds lines 111-119 of `__getitem__`: `seq = self.data[s:min(s+T+1, len)]`
followed by padding with the EOS id up to length `T+1`. -/
def paddedSeq (data : List ℕ) (nl T s : ℕ) : List ℕ :=
  let seq := (data.drop s).take (T + 1)
  seq ++ List.replicate (T + 1 - seq.length) nl

/-- Embeds lines 121-124 of `__getitem__`: `x = seq[:-1]`, `y = seq[1:]`.
The chosen start `s` is `starts[i]` in non-random mode and a uniformly random
element of `starts` in random mode; both are covered by passing `s` in. -/
def getItem (data : List ℕ) (nl T s : ℕ) : List ℕ × List ℕ :=
  ((paddedSeq data nl T s).dropLast, (paddedSeq data nl T s).drop 1)

theorem paddedSeq_length (data : List ℕ) (nl T s : ℕ) :
    (paddedSeq data nl T s).length = T + 1 := by
  unfold paddedSeq
  simp only [List.length_append, List.length_replicate]
  have h : ((data.drop s).take (T + 1)).length ≤ T + 1 := by
    simp [List.length_take]
  omega

theorem paddedSeq_getD_of_lt (data : List ℕ) (nl T s j : ℕ)
    (hj : j < T + 1) (hin : s + j < data.length) :
    (paddedSeq data nl T s).getD j 0 = data.getD (s + j) 0 := by
  unfold paddedSeq
  have hlen : ((data.drop s).take (T + 1)).length = min (T + 1) (data.length - s) := by
    simp [List.length_take]
  have hjlt : j < ((data.drop s).take (T + 1)).length := by omega
  rw [List.getD_append _ _ _ _ hjlt, List.getD_eq_getElem _ _ hjlt]
  have hjd : j < (data.drop s).length := by simp; omega
  rw [List.getElem_take, List.getElem_drop]
  rw [List.getD_eq_getElem data 0 (by omega)]

theorem paddedSeq_getD_of_ge (data : List ℕ) (nl T s j : ℕ)
    (hj : j < T + 1) (hout : data.length ≤ s + j) :
    (paddedSeq data nl T s).getD j 0 = nl := by
  unfold paddedSeq
  have hlen : ((data.drop s).take (T + 1)).length = min (T + 1) (data.length - s) := by
    simp [List.length_take]
  have hjge : ((data.drop s).take (T + 1)).length ≤ j := by omega
  rw [List.getD_append_right _ _ _ _ hjge]
  have : j - ((data.drop s).take (T + 1)).length < T + 1 - ((data.drop s).take (T + 1)).length := by
    omega
  rw [List.getD_eq_getElem _ _ (by simpa using this)]
  simp

theorem nlPositions_sorted (data : List ℕ) (nl : ℕ) :
    List.Sorted (· < ·) (nlPositions data nl) :=
  (List.pairwise_lt_range data.length).sublist (List.filter_sublist _)

theorem nlPositions_nodup (data : List ℕ) (nl : ℕ) :
    (nlPositions data nl).Nodup :=
  (List.nodup_range data.length).sublist (List.filter_sublist _)

theorem mem_nlPositions (data : List ℕ) (nl p : ℕ) :
    p ∈ nlPositions data nl ↔ p < data.length ∧ data.getD p 0 = nl := by
  unfold nlPositions
  simp [List.mem_filter, List.mem_range]

theorem getItem_fst_length (data : List ℕ) (nl T s : ℕ) :
    (getItem data nl T s).1.length = T := by
  simp [getItem, paddedSeq_length]

theorem getItem_snd_length (data : List ℕ) (nl T s : ℕ) :
    (getItem data nl T s).2.length = T := by
  simp [getItem, paddedSeq_length]

theorem getItem_fst_getD (data : List ℕ) (nl T s j : ℕ) (hj : j < T) :
    (getItem data nl T s).1.getD j 0 = (paddedSeq data nl T s).getD j 0 := by
  have h1 : j < (paddedSeq data nl T s).dropLast.length := by
    simp [paddedSeq_length]; omega
  have h2 : j < (paddedSeq data nl T s).length := by
    simp [paddedSeq_length]; omega
  simp only [getItem]
  rw [List.getD_eq_getElem _ _ h1, List.getD_eq_getElem _ _ h2, List.getElem_dropLast]

theorem getItem_snd_getD (data : List ℕ) (nl T s j : ℕ) (hj : j < T) :
    (getItem data nl T s).2.getD j 0 = (paddedSeq data nl T s).getD (j + 1) 0 := by
  have h1 : j < ((paddedSeq data nl T s).drop 1).length := by
    simp [paddedSeq_length]; omega
  have h2 : j + 1 < (paddedSeq data nl T s).length := by
    simp [paddedSeq_length]; omega
  simp only [getItem]
  rw [List.getD_eq_getElem _ _ h1, List.getD_eq_getElem _ _ h2, List.getElem_drop]
  congr 1
  omega

/-- C1: every sample accepted by `__getitem__` (index `i < len(starts)` in
non-random mode; a random element of a non-empty `starts` in random mode) is a
pair of sequences of length exactly `T`, and every window position that runs
past the end of the token stream is filled with the EOS id `nl`. -/
theorem getitem_fixed_length_and_padding (data : List ℕ) (nl T i : ℕ)
    (hi : i < (starts data nl).length) :
    ((getItem data nl T ((starts data nl).getD i 0)).1.length = T ∧
      (getItem data nl T ((starts data nl).getD i 0)).2.length = T) ∧
    (∀ j, j < T → data.length ≤ (starts data nl).getD i 0 + j →
      (getItem data nl T ((starts data nl).getD i 0)).1.getD j 0 = nl) ∧
    (∀ j, j < T → data.length ≤ (starts data nl).getD i 0 + (j + 1) →
      (getItem data nl T ((starts data nl).getD i 0)).2.getD j 0 = nl) := by
  refine ⟨⟨getItem_fst_length _ _ _ _, getItem_snd_length _ _ _ _⟩, ?_, ?_⟩
  · intro j hj hout
    rw [getItem_fst_getD _ _ _ _ _ hj]
    exact paddedSeq_getD_of_ge _ _ _ _ _ (by omega) hout
  · intro j hj hout
    rw [getItem_snd_getD _ _ _ _ _ hj]
    exact paddedSeq_getD_of_ge _ _ _ _ _ (by omega) (by omega)

/-- C1 witness: on the concrete stream `[0,5,6,0,7,0]` with EOS id `0` and
`T = 3`, the sample at index 1 (start 4) has x and y of length 3 and its
padded tail positions hold the EOS id. -/
theorem getitem_fixed_length_and_padding_witness :
    (getItem [0, 5, 6, 0, 7, 0] 0 3 ((starts [0, 5, 6, 0, 7, 0] 0).getD 1 0)).1.length = 3 ∧
    (getItem [0, 5, 6, 0, 7, 0] 0 3 ((starts [0, 5, 6, 0, 7, 0] 0).getD 1 0)).2.getD 2 0 = 0 :=
  ⟨(getitem_fixed_length_and_padding [0, 5, 6, 0, 7, 0] 0 3 1 (by decide)).1.1,
   (getitem_fixed_length_and_padding [0, 5, 6, 0, 7, 0] 0 3 1 (by decide)).2.2 2
     (by decide) (by decide)⟩

/-- C2: every start is one position past an EOS token (`data[s-1] = nl`), the
position after the final EOS is never a start, and the i-th sample of
non-random mode starts at the i-th boundary in stream order
(`starts[i] = nl_positions[i] + 1`). -/
theorem starts_boundary_aligned (data : List ℕ) (nl : ℕ) :
    (∀ s ∈ starts data nl, 1 ≤ s ∧ data.getD (s - 1) 0 = nl) ∧
    (∀ p, (nlPositions data nl).getLast? = some p → p + 1 ∉ starts data nl) ∧
    (∀ i, i < (starts data nl).length →
      (starts data nl).getD i 0 = (nlPositions data nl).getD i 0 + 1) := by
  refine ⟨?_, ?_, ?_⟩
  · intro s hs
    rcases List.mem_map.mp hs with ⟨p, hp, hps⟩
    have hpmem : p ∈ nlPositions data nl :=
      (List.dropLast_sublist _).mem hp
    have := (mem_nlPositions data nl p).mp hpmem
    constructor
    · omega
    · have : s - 1 = p := by omega
      rw [this]
      exact ((mem_nlPositions data nl p).mp hpmem).2
  · intro p hp hmem
    have hne : nlPositions data nl ≠ [] := by
      intro h
      rw [h] at hp
      simp at hp
    have hlast : (nlPositions data nl).getLast hne = p := by
      rw [List.getLast?_eq_getLast _ hne] at hp
      exact Option.some_injective _ hp
    rcases List.mem_map.mp hmem with ⟨q, hq, hqp⟩
    have hqeq : q = p := by omega
    subst hqeq
    have hnodup := nlPositions_nodup data nl
    have hsplit := List.dropLast_append_getLast hne
    rw [← hsplit] at hnodup
    rcases List.nodup_append.mp hnodup with ⟨-, -, hdisj⟩
    exact hdisj hq (by simp [hlast])
  · intro i hi
    have hi' : i < (nlPositions data nl).dropLast.length := by
      simpa [starts] using hi
    have hi'' : i < (nlPositions data nl).length := by
      have := (nlPositions data nl).dropLast_sublist.length_le
      omega
    simp only [starts]
    rw [List.getD_eq_getElem _ _ (by simpa [starts] using hi), List.getElem_map,
      List.getElem_dropLast, List.getD_eq_getElem _ _ hi'']

/-- C2 witness: on the stream `[0,5,6,0,7,0]` with EOS id `0`, the start `1`
is one past an EOS, the position `6` after the final EOS (position 5) is not a
start, and `starts[0] = nl_positions[0] + 1`. -/
theorem starts_boundary_aligned_witness :
    (1 ≤ 1 ∧ ([0, 5, 6, 0, 7, 0] : List ℕ).getD 0 0 = 0) ∧
    (5 + 1 ∉ starts [0, 5, 6, 0, 7, 0] 0) ∧
    (starts [0, 5, 6, 0, 7, 0] 0).getD 0 0 = (nlPositions [0, 5, 6, 0, 7, 0] 0).getD 0 0 + 1 :=
  ⟨(starts_boundary_aligned [0, 5, 6, 0, 7, 0] 0).1 1 (by decide),
   (starts_boundary_aligned [0, 5, 6, 0, 7, 0] 0).2.1 5 (by decide),
   (starts_boundary_aligned [0, 5, 6, 0, 7, 0] 0).2.2 0 (by decide)⟩

/-- C5: for every sample produced by `__getitem__`, the target `y` is the
input `x` shifted one position (`y[j] = x[j+1]` for `j < T-1`), and `y[T-1]`
is the stream token following the window when it exists and the EOS padding
token otherwise. -/
theorem getitem_shift_pair (data : List ℕ) (nl T i : ℕ) (hT : 0 < T)
    (hi : i < (starts data nl).length) :
    (∀ j, j + 1 < T →
      (getItem data nl T ((starts data nl).getD i 0)).2.getD j 0 =
        (getItem data nl T ((starts data nl).getD i 0)).1.getD (j + 1) 0) ∧
    ((getItem data nl T ((starts data nl).getD i 0)).2.getD (T - 1) 0 =
      if (starts data nl).getD i 0 + T < data.length then
        data.getD ((starts data nl).getD i 0 + T) 0
      else nl) := by
  constructor
  · intro j hj
    rw [getItem_snd_getD _ _ _ _ _ (by omega), getItem_fst_getD _ _ _ _ _ hj]
  · rw [getItem_snd_getD _ _ _ _ _ (by omega)]
    have hTT : T - 1 + 1 = T := by omega
    rw [hTT]
    split
    · exact paddedSeq_getD_of_lt _ _ _ _ _ (by omega) (by omega)
    · exact paddedSeq_getD_of_ge _ _ _ _ _ (by omega) (by omega)

/-- C5 witness: on the stream `[0,5,6,0,7,0]` with EOS id `0` and `T = 3`,
the sample at index 1 satisfies the shift relation at position 0 and its last
target entry is the EOS padding token (the window runs past the stream). -/
theorem getitem_shift_pair_witness :
    (getItem [0, 5, 6, 0, 7, 0] 0 3 ((starts [0, 5, 6, 0, 7, 0] 0).getD 1 0)).2.getD 0 0 =
      (getItem [0, 5, 6, 0, 7, 0] 0 3 ((starts [0, 5, 6, 0, 7, 0] 0).getD 1 0)).1.getD 1 0 ∧
    (getItem [0, 5, 6, 0, 7, 0] 0 3 ((starts [0, 5, 6, 0, 7, 0] 0).getD 1 0)).2.getD 2 0 =
      if (starts [0, 5, 6, 0, 7, 0] 0).getD 1 0 + 3 < ([0, 5, 6, 0, 7, 0] : List ℕ).length then
        ([0, 5, 6, 0, 7, 0] : List ℕ).getD ((starts [0, 5, 6, 0, 7, 0] 0).getD 1 0 + 3) 0
      else 0 :=
  ⟨(getitem_shift_pair [0, 5, 6, 0, 7, 0] 0 3 1 (by decide) (by decide)).1 0 (by decide),
   (getitem_shift_pair [0, 5, 6, 0, 7, 0] 0 3 1 (by decide) (by decide)).2⟩

/-! ### Token-id compaction (src/data_utils.py, lines 52-75)

`torch.unique(ids, sorted=True)` returns the strictly increasing enumeration
of the values occurring in `ids`; `comp2orig` below is that list. The
tokenizer (`tiktoken`) is an external collaborator, so `encode`/`decode` are
abstract parameters.
-/

/-- Embeds `comp2orig = torch.unique(ids, sorted=True)`: the sorted distinct
token ids of the corpus, realised as the increasing values below the maximum
that occur in `ids`. -/
def comp2orig (ids : List ℕ) : List ℕ :=
  (List.range (ids.foldr max 0 + 1)).filter (fun x => decide (x ∈ ids))

/-- First index of `x` in a list, `none` when absent: the lookup behaviour of
the Python dict built by `enumerate` (its keys are distinct here, so first
occurrence and dict semantics agree). -/
def idxIn (x : ℕ) : List ℕ → Option ℕ
  | [] => none
  | y :: ys => if y = x then some 0 else (idxIn x ys).map (· + 1)

/-- Embeds `orig2comp = {int(o): i for i, o in enumerate(comp2orig)}`;
`none` models the `KeyError` a lookup of an absent token raises. -/
def orig2comp (ids : List ℕ) (x : ℕ) : Option ℕ :=
  idxIn x (comp2orig ids)

/-- Maps a lookup over a list, failing when any element fails: the behaviour
of the list comprehension `[orig2comp[x] for x in ids]` under `KeyError`. -/
def mapLookup (f : ℕ → Option ℕ) : List ℕ → Option (List ℕ)
  | [] => some []
  | x :: xs =>
    match f x, mapLookup f xs with
    | some y, some ys => some (y :: ys)
    | _, _ => none

/-- Embeds `stot` (lines 68-70): encode, then map each original token id to
its compact id; `none` models the `KeyError` on a token absent from the
corpus. -/
def stot (encode : String → List ℕ) (ids : List ℕ) (s : String) : Option (List ℕ) :=
  mapLookup (orig2comp ids) (encode s)

/-- Embeds `ttos` with `for_output=False` (lines 72-75): map compact ids back
through `comp2orig`, then decode. -/
def ttos (decode : List ℕ → String) (ids : List ℕ) (t : List ℕ) : String :=
  decode (t.map (fun i => (comp2orig ids).getD i 0))

theorem le_foldr_max (l : List ℕ) : ∀ x ∈ l, x ≤ l.foldr max 0 := by
  induction l with
  | nil => simp
  | cons y ys ih =>
    intro x hx
    rcases List.mem_cons.mp hx with h | h
    · subst h; exact le_max_left _ _
    · exact le_trans (ih x h) (le_max_right _ _)

theorem mem_comp2orig (ids : List ℕ) (x : ℕ) : x ∈ comp2orig ids ↔ x ∈ ids := by
  unfold comp2orig
  simp only [List.mem_filter, List.mem_range, decide_eq_true_eq]
  constructor
  · exact fun h => h.2
  · intro h
    exact ⟨by have := le_foldr_max ids x h; omega, h⟩

theorem comp2orig_sorted (ids : List ℕ) : List.Sorted (· < ·) (comp2orig ids) :=
  (List.pairwise_lt_range _).sublist (List.filter_sublist _)

theorem comp2orig_nodup (ids : List ℕ) : (comp2orig ids).Nodup :=
  (List.nodup_range _).sublist (List.filter_sublist _)

theorem idxIn_eq_none (x : ℕ) (l : List ℕ) : idxIn x l = none ↔ x ∉ l := by
  induction l with
  | nil => simp [idxIn]
  | cons y ys ih =>
    simp only [idxIn, List.mem_cons]
    by_cases h : y = x
    · simp [h]
    · rw [if_neg h]
      constructor
      · intro hn hc
        have h0 : idxIn x ys = none := Option.map_eq_none'.mp hn
        rcases hc with hc | hc
        · exact h hc.symm
        · exact (ih.mp h0) hc
      · intro hn
        have hxy : x ∉ ys := fun hc => hn (Or.inr hc)
        rw [ih.mpr hxy]
        rfl

theorem idxIn_getD (x : ℕ) (l : List ℕ) (i : ℕ) (h : idxIn x l = some i) :
    l.getD i 0 = x := by
  induction l generalizing i with
  | nil => simp [idxIn] at h
  | cons y ys ih =>
    by_cases hy : y = x
    · subst hy
      simp only [idxIn, if_pos rfl] at h
      cases h
      rfl
    · simp only [idxIn, if_neg hy] at h
      rcases Option.map_eq_some'.mp h with ⟨j, hj, hij⟩
      subst hij
      simpa using ih j hj

theorem idxIn_lt_length (x : ℕ) (l : List ℕ) (i : ℕ) (h : idxIn x l = some i) :
    i < l.length := by
  induction l generalizing i with
  | nil => simp [idxIn] at h
  | cons y ys ih =>
    by_cases hy : y = x
    · subst hy
      simp only [idxIn, if_pos rfl] at h
      cases h
      simp
    · simp only [idxIn, if_neg hy] at h
      rcases Option.map_eq_some'.mp h with ⟨j, hj, hij⟩
      subst hij
      have := ih j hj
      simp only [List.length_cons]
      omega

theorem idxIn_self (l : List ℕ) (hnd : l.Nodup) (i : ℕ) (hi : i < l.length) :
    idxIn (l.getD i 0) l = some i := by
  induction l generalizing i with
  | nil => simp at hi
  | cons y ys ih =>
    rcases List.nodup_cons.mp hnd with ⟨hy, hys⟩
    cases i with
    | zero => simp [idxIn]
    | succ j =>
      have hj : j < ys.length := by simpa using hi
      have hne : y ≠ ys.getD j 0 := by
        intro h
        exact hy (h ▸ (by rw [List.getD_eq_getElem _ _ hj]; exact List.getElem_mem hj))
      simp only [List.getD_cons_succ, idxIn, if_neg hne]
      rw [ih hys j hj]
      rfl

theorem mapLookup_total (f : ℕ → Option ℕ) (g : ℕ → ℕ) (xs : List ℕ)
    (h : ∀ x ∈ xs, ∃ y, f x = some y ∧ g y = x) :
    ∃ t, mapLookup f xs = some t ∧ t.map g = xs := by
  induction xs with
  | nil => exact ⟨[], rfl, rfl⟩
  | cons x xs ih =>
    rcases h x (List.mem_cons_self x xs) with ⟨y, hy, hgy⟩
    rcases ih (fun z hz => h z (List.mem_cons_of_mem x hz)) with ⟨t, ht, hgt⟩
    exact ⟨y :: t, by simp [mapLookup, hy, ht], by simp [hgy, hgt]⟩

theorem mapLookup_none (f : ℕ → Option ℕ) (xs : List ℕ) (x : ℕ)
    (hx : x ∈ xs) (hf : f x = none) : mapLookup f xs = none := by
  induction xs with
  | nil => simp at hx
  | cons z zs ih =>
    rcases List.mem_cons.mp hx with h | h
    · subst h
      simp [mapLookup, hf]
    · simp only [mapLookup, ih h]
      cases f z <;> rfl

/-- C8: the token-id compaction round-trips. `comp2orig` is strictly
increasing; `orig2comp[comp2orig[i]] = i` for every compact id `i`; for every
string all of whose tokens occur in the corpus, `ttos (stot s)` (with
`for_output = False`) equals `decode (encode s)`; and `stot` fails with a
`KeyError` (modelled as `none`) when some token of the string is absent from
the corpus. -/
theorem compaction_roundtrip (encode : String → List ℕ) (decode : List ℕ → String)
    (ids : List ℕ) (s : String) :
    List.Sorted (· < ·) (comp2orig ids) ∧
    (∀ i, i < (comp2orig ids).length →
      orig2comp ids ((comp2orig ids).getD i 0) = some i) ∧
    ((∀ x ∈ encode s, x ∈ ids) →
      ∃ t, stot encode ids s = some t ∧ ttos decode ids t = decode (encode s)) ∧
    ((∃ x ∈ encode s, x ∉ ids) → stot encode ids s = none) := by
  refine ⟨comp2orig_sorted ids, ?_, ?_, ?_⟩
  · intro i hi
    exact idxIn_self _ (comp2orig_nodup ids) i hi
  · intro h
    have hall : ∀ x ∈ encode s,
        ∃ y, orig2comp ids x = some y ∧ (comp2orig ids).getD y 0 = x := by
      intro x hx
      have hmem : x ∈ comp2orig ids := (mem_comp2orig ids x).mpr (h x hx)
      cases hidx : idxIn x (comp2orig ids) with
      | none => exact absurd hmem ((idxIn_eq_none x _).mp hidx)
      | some i => exact ⟨i, hidx, idxIn_getD x _ i hidx⟩
    rcases mapLookup_total (orig2comp ids) (fun i => (comp2orig ids).getD i 0)
        (encode s) hall with ⟨t, ht, hgt⟩
    exact ⟨t, ht, by unfold ttos; rw [hgt]⟩
  · intro ⟨x, hx, hnm⟩
    refine mapLookup_none _ _ x hx ?_
    exact (idxIn_eq_none x _).mpr (fun hc => hnm ((mem_comp2orig ids x).mp hc))

/-- Concrete tokenizer stub used only by the C8 witness. -/
def encW : String → List ℕ := fun s => if s = "a" then [5, 3] else [9]

/-- Concrete decoder stub used only by the C8 witness. -/
def decW : List ℕ → String := fun l => toString l.length

/-- C8 witness: over the corpus `[3,5,3]`, the string "a" (tokens 5, 3, both
present) round-trips, and the string "b" (token 9, absent) makes `stot`
fail. -/
theorem compaction_roundtrip_witness :
    (∃ t, stot encW [3, 5, 3] "a" = some t ∧
      ttos decW [3, 5, 3] t = decW (encW "a")) ∧
    stot encW [3, 5, 3] "b" = none :=
  ⟨(compaction_roundtrip encW decW [3, 5, 3] "a").2.2.1 (by decide),
   (compaction_roundtrip encW decW [3, 5, 3] "b").2.2.2 (by decide)⟩

/-! ### csv_to_tensor (src/data_utils.py, lines 36-57)

A CSV row is modelled by the value `row.get(text_col)` returns: `none` when
the column is missing, otherwise the string (possibly empty). `if not j`
skips both cases.
-/

/-- The texts the loop keeps: rows whose text column is present and
non-empty (the complement of the rows `if not j: continue` skips). -/
def keptTexts (rows : List (Option String)) : List String :=
  rows.filterMap (fun r =>
    match r with
    | none => none
    | some j => if j = "" then none else some j)

/-- Embeds the reader loop of `csv_to_tensor` (lines 41-50): first component
is `all_ids` (each kept text's tokens followed by `tok.encode(eos_token)`),
second is `joke_len`. -/
def csv_to_tensor (encode : String → List ℕ) (eosLit : String)
    (rows : List (Option String)) : List ℕ × List ℕ :=
  rows.foldl
    (fun acc r =>
      match r with
      | none => acc
      | some j =>
        if j = "" then acc
        else (acc.1 ++ encode j ++ encode eosLit, acc.2 ++ [(encode j).length]))
    ([], [])

theorem csv_to_tensor_fold (encode : String → List ℕ) (eosLit : String)
    (rows : List (Option String)) (acc : List ℕ × List ℕ) :
    rows.foldl
      (fun acc r =>
        match r with
        | none => acc
        | some j =>
          if j = "" then acc
          else (acc.1 ++ encode j ++ encode eosLit, acc.2 ++ [(encode j).length]))
      acc =
    (acc.1 ++ (keptTexts rows).flatMap (fun j => encode j ++ encode eosLit),
     acc.2 ++ (keptTexts rows).map (fun j => (encode j).length)) := by
  induction rows generalizing acc with
  | nil => simp [keptTexts]
  | cons r rs ih =>
    cases r with
    | none =>
      rw [List.foldl_cons, ih]
      simp [keptTexts]
    | some j =>
      by_cases hj : j = ""
      · subst hj
        rw [List.foldl_cons, ih]
        simp [keptTexts]
      · rw [List.foldl_cons, ih]
        simp [keptTexts, hj]

theorem flatMap_getLast (encode : String → List ℕ) (e : ℕ) (texts : List String)
    (hne : texts ≠ []) :
    (texts.flatMap (fun j => encode j ++ [e])).getLast? = some e := by
  induction texts with
  | nil => exact absurd rfl hne
  | cons t ts ih =>
    cases ts with
    | nil => simp [List.getLast?_concat]
    | cons u us =>
      rw [List.flatMap_cons, List.getLast?_append, ih (by simp)]
      rfl

theorem flatMap_count (encode : String → List ℕ) (e : ℕ) (texts : List String)
    (h : ∀ j ∈ texts, e ∉ encode j) :
    List.count e (texts.flatMap (fun j => encode j ++ [e])) = texts.length := by
  induction texts with
  | nil => simp
  | cons t ts ih =>
    rw [List.flatMap_cons, List.count_append, List.count_append]
    rw [ih (fun j hj => h j (List.mem_cons_of_mem t hj))]
    have h0 : List.count e (encode t) = 0 :=
      List.count_eq_zero.mpr (h t (List.mem_cons_self t ts))
    simp [h0]
    omega

/-- C9: `csv_to_tensor` skips every row whose text column is missing or
empty; each kept row contributes its token ids followed by exactly one EOS
token; hence (when no kept text itself encodes to something containing the
EOS id) the EOS count equals the number of kept rows, the stream ends with
EOS once at least one row is kept, and `joke_len` lists each kept row's
pre-EOS token count. -/
theorem csv_to_tensor_spec (encode : String → List ℕ) (eosLit : String) (e : ℕ)
    (rows : List (Option String)) (heos : encode eosLit = [e])
    (hnoeos : ∀ j ∈ keptTexts rows, e ∉ encode j) :
    (csv_to_tensor encode eosLit rows).1 =
      (keptTexts rows).flatMap (fun j => encode j ++ [e]) ∧
    (csv_to_tensor encode eosLit rows).2 =
      (keptTexts rows).map (fun j => (encode j).length) ∧
    List.count e (csv_to_tensor encode eosLit rows).1 = (keptTexts rows).length ∧
    (keptTexts rows ≠ [] →
      (csv_to_tensor encode eosLit rows).1.getLast? = some e) := by
  have hfold := csv_to_tensor_fold encode eosLit rows ([], [])
  have h1 : (csv_to_tensor encode eosLit rows).1 =
      (keptTexts rows).flatMap (fun j => encode j ++ [e]) := by
    unfold csv_to_tensor
    rw [hfold]
    simp [heos]
  refine ⟨h1, ?_, ?_, ?_⟩
  · unfold csv_to_tensor
    rw [hfold]
    simp
  · rw [h1]
    exact flatMap_count encode e _ hnoeos
  · intro hne
    rw [h1]
    exact flatMap_getLast encode e _ hne

/-- Concrete tokenizer stub used only by the C9 witness. -/
def encW9 : String → List ℕ := fun s =>
  if s = "<e>" then [0] else if s = "ab" then [1, 2] else [4]

/-- C9 witness: rows `[some "ab", none, some "", some "c"]` keep exactly
"ab" and "c"; with `encW9` encoding "ab" to `[1,2]`, "c" to `[4]` and the EOS
literal to `[0]`, the stream is `[1,2,0,4,0]`, the EOS count is 2, the last
token is EOS, and `joke_len = [2,1]`. -/
theorem csv_to_tensor_spec_witness :
    (csv_to_tensor encW9 "<e>" [some "ab", none, some "", some "c"]).2 =
      (keptTexts [some "ab", none, some "", some "c"]).map
        (fun j => (encW9 j).length) ∧
    List.count 0 (csv_to_tensor encW9 "<e>" [some "ab", none, some "", some "c"]).1 =
      (keptTexts [some "ab", none, some "", some "c"]).length ∧
    (csv_to_tensor encW9 "<e>" [some "ab", none, some "", some "c"]).1.getLast? =
      some 0 :=
  ⟨(csv_to_tensor_spec encW9 "<e>" 0 [some "ab", none, some "", some "c"]
      (by decide) (by decide)).2.1,
   (csv_to_tensor_spec encW9 "<e>" 0 [some "ab", none, some "", some "c"]
      (by decide) (by decide)).2.2.1,
   (csv_to_tensor_spec encW9 "<e>" 0 [some "ab", none, some "", some "c"]
      (by decide) (by decide)).2.2.2 (by decide)⟩

/-! ### Construct_data_loaders (src/data_utils.py, lines 126-135)

Only the train/val split of the corpus tensor is in scope: the DataLoader
wrappers are framework collaborators. `int(len_ * split)` truncates; for the
non-negative values in range it equals the floor.
-/

/-- Embeds lines 128-131: `len_tr = int(len_ * split)` and
`jokes_tr, jokes_val = jokes.split([len_tr, len_val])`. -/
def Construct_data_loaders (jokes : List ℕ) (split : ℚ) : List ℕ × List ℕ :=
  let len_tr := (⌊(jokes.length : ℚ) * split⌋).toNat
  (jokes.take len_tr, jokes.drop len_tr)

/-- C10: with `0 ≤ split ≤ 1`, the training part has exactly
`⌊split * N⌋` tokens, the validation part the remaining `N - ⌊split * N⌋`,
and the two parts concatenate back to the original corpus (the corpus itself
is a pure value here, so it is untouched). -/
theorem construct_data_loaders_split (jokes : List ℕ) (split : ℚ)
    (h0 : 0 ≤ split) (h1 : split ≤ 1) :
    (((Construct_data_loaders jokes split).1.length : ℤ) =
      ⌊split * (jokes.length : ℚ)⌋) ∧
    ((Construct_data_loaders jokes split).2.length =
      jokes.length - (Construct_data_loaders jokes split).1.length) ∧
    ((Construct_data_loaders jokes split).1 ++
      (Construct_data_loaders jokes split).2 = jokes) := by
  have hnonneg : (0 : ℚ) ≤ (jokes.length : ℚ) * split :=
    mul_nonneg (by positivity) h0
  have hfl0 : (0 : ℤ) ≤ ⌊(jokes.length : ℚ) * split⌋ := by
    exact_mod_cast Int.floor_nonneg.mpr hnonneg
  have hle : (jokes.length : ℚ) * split ≤ (jokes.length : ℚ) := by
    calc (jokes.length : ℚ) * split ≤ (jokes.length : ℚ) * 1 :=
          mul_le_mul_of_nonneg_left h1 (by positivity)
      _ = (jokes.length : ℚ) := mul_one _
  have hfl : ⌊(jokes.length : ℚ) * split⌋ ≤ (jokes.length : ℤ) := by
    have := Int.floor_le_floor hle
    rwa [Int.floor_natCast] at this
  have hlen : (⌊(jokes.length : ℚ) * split⌋).toNat ≤ jokes.length := by omega
  refine ⟨?_, ?_, ?_⟩
  · unfold Construct_data_loaders
    simp only [List.length_take]
    rw [min_eq_left hlen, mul_comm split ((jokes.length : ℚ))]
    exact Int.toNat_of_nonneg hfl0
  · unfold Construct_data_loaders
    simp only [List.length_take, List.length_drop]
    omega
  · exact List.take_append_drop _ _

/-- C10 witness: a corpus of 3 tokens split at `1/2` gives a training part of
`⌊3/2⌋ = 1` token, a validation part of 2, and they concatenate back. -/
theorem construct_data_loaders_split_witness :
    (((Construct_data_loaders [7, 8, 9] (1 / 2)).1.length : ℤ) =
      ⌊(1 / 2 : ℚ) * (([7, 8, 9] : List ℕ).length : ℚ)⌋) ∧
    ((Construct_data_loaders [7, 8, 9] (1 / 2)).1 ++
      (Construct_data_loaders [7, 8, 9] (1 / 2)).2 = [7, 8, 9]) :=
  ⟨(construct_data_loaders_split [7, 8, 9] (1 / 2) (by norm_num) (by norm_num)).1,
   (construct_data_loaders_split [7, 8, 9] (1 / 2) (by norm_num) (by norm_num)).2.2⟩

/-! ### Train (src/train.py)

The training loop is embedded as explicit state passing over `TrainState`.
Losses are the values `loss.item()` yields, abstracted as rationals supplied
by oracles: the per-batch training losses of epoch `e` are a list
`epochs e`, and `vO s` gives the per-batch validation losses of the
evaluation fired at global step `s` (model, autograd and data loader are
external collaborators). `int(len(loss_curve_val) * 0.2)` equals
`len / 5` in natural division for the list lengths in range. -/

/-- The observable actions of the loop body, in program order. `valForward`
records the loss of one validation batch and the gradient flag in force
(`false` means inside `torch.no_grad()`). -/
inductive Ev where
  | forward (step : ℕ)
  | zeroGrad (step : ℕ)
  | backward (step : ℕ)
  | optStep (step : ℕ)
  | setEval
  | setTrain
  | valForward (loss : ℚ) (gradEnabled : Bool)
deriving DecidableEq

/-- The mutable state of `Train`: the global step counter, the training-loss
accumulator `lossi`, the two loss curves, `indices_back` (initially 1), the
tracked learning rate `lr`, the learning rates of the optimizer's parameter
groups, the number of checkpoint saves performed, and the event trace. -/
structure TrainState where
  step : ℕ
  lossi : List ℚ
  curveTr : List ℚ
  curveVal : List ℚ
  indicesBack : ℕ
  lr : ℚ
  groups : List ℚ
  saved : ℕ
  events : List Ev
deriving DecidableEq

/-- `torch.tensor(l).mean()` and `sum(l) / (idx_block + 1)`: the arithmetic
mean of the list entries. -/
def listMean (l : List ℚ) : ℚ := l.sum / (l.length : ℚ)

/-- Python `l[-1]`. -/
def lastVal (l : List ℚ) : ℚ := l.getD (l.length - 1) 0

/-- Python `l[-k]` for `1 ≤ k ≤ len(l)`. -/
def lookback (l : List ℚ) (k : ℕ) : ℚ := l.getD (l.length - k) 0

/-- Lines 38-42: the forward pass, `optimizer.zero_grad`, `loss.backward`
and `optimizer.step` of the batch at global step `s`, in program order. -/
def trainBatchEvents (s : ℕ) : List Ev :=
  [Ev.forward s, Ev.zeroGrad s, Ev.backward s, Ev.optStep s]

/-- Lines 48-58: `m.eval()`, one `no_grad` forward pass per validation
batch, `m.train()`. -/
def evalEvents (vls : List ℚ) : List Ev :=
  [Ev.setEval] ++ vls.map (fun v => Ev.valForward v false) ++ [Ev.setTrain]

/-- One iteration of the inner loop (lines 36-59): process the batch with
training loss `l`; when the incremented global step is a multiple of
`eval_interval`, append the mean of the accumulated training losses and the
mean per-batch validation loss to the curves and clear the accumulator. -/
def runStep (ei : ℕ) (vls : List ℚ) (l : ℚ) (st : TrainState) : TrainState :=
  let s := st.step + 1
  let acc := st.lossi ++ [l]
  if s % ei = 0 then
    { st with
      step := s
      lossi := []
      curveTr := st.curveTr ++ [listMean acc]
      curveVal := st.curveVal ++ [listMean vls]
      events := st.events ++ trainBatchEvents s ++ evalEvents vls }
  else
    { st with
      step := s
      lossi := acc
      events := st.events ++ trainBatchEvents s }

/-- The inner `for` loop over the epoch's batches. -/
def innerLoop (ei : ℕ) (vO : ℕ → List ℚ) : TrainState → List ℚ → TrainState
  | st, [] => st
  | st, l :: ls => innerLoop ei vO (runStep ei (vO (st.step + 1)) l st) ls

/-- Lines 81-89: once more than one training-loss point exists, recompute
`indices_back = int(len(loss_curve_val) * 0.2) + 2` and, when the ratio of
the last validation loss to the one `indices_back` back exceeds 0.996, divide
the tracked learning rate by 1.5 and write it into every parameter group. -/
def adjustLR (st : TrainState) : TrainState :=
  if 1 < st.curveTr.length then
    let ib := st.curveVal.length / 5 + 2
    if 0.996 < lastVal st.curveVal / lookback st.curveVal ib then
      { st with
        indicesBack := ib
        lr := st.lr / 1.5
        groups := st.groups.map (fun _ => st.lr / 1.5) }
    else { st with indicesBack := ib }
  else st

/-- One epoch (lines 30-89): the accumulator is reset (line 34), the batches
are processed, then the learning-rate adjustment runs. The end-of-epoch
print at line 67 reads `loss_val`, a local that line 56 assigns only inside
an evaluation; when no evaluation has fired since `Train` started, that read
raises `UnboundLocalError` and the program stops at the end of the first
epoch. The print is otherwise effect-free and is not modelled, so this
definition traces the source only on runs whose first epoch contains at
least one evaluation (equivalently, `curveTr ≠ []` after the first epoch);
every concrete run used below satisfies this. -/
def epochBody (ei : ℕ) (vO : ℕ → List ℚ) (ls : List ℚ) (st : TrainState) :
    TrainState :=
  adjustLR (innerLoop ei vO { st with lossi := [] } ls)

/-- Line 29 with Python operator precedence:
`len(val) < 2 or (val[-1] / val[-indices_back] < 0.998 and lr > minimal_lr)`. -/
def loopCond (mlr : ℚ) (st : TrainState) : Bool :=
  decide (st.curveVal.length < 2) ||
    (decide (lastVal st.curveVal / lookback st.curveVal st.indicesBack < 0.998) &&
      decide (mlr < st.lr))

/-- The `while` loop plus the single checkpoint save after it (lines 91-95),
with explicit fuel; `none` when the fuel runs out before the loop exits. -/
def Train (ei : ℕ) (vO : ℕ → List ℚ) (epochs : ℕ → List ℚ) (mlr : ℚ) :
    ℕ → ℕ → TrainState → Option TrainState
  | 0, _, _ => none
  | fuel + 1, e, st =>
    if loopCond mlr st then
      Train ei vO epochs mlr fuel (e + 1) (epochBody ei vO (epochs e) st)
    else some { st with saved := st.saved + 1 }

/-- The training-curve points one epoch contributes: the epoch's batch
losses chopped at global steps divisible by `eval_interval`, each chunk
averaged; `acc` is the accumulator contents at entry and a trailing partial
chunk contributes nothing. -/
def chopTr (ei : ℕ) : ℕ → List ℚ → List ℚ → List ℚ
  | _, _, [] => []
  | stp, acc, l :: ls =>
    if (stp + 1) % ei = 0 then listMean (acc ++ [l]) :: chopTr ei (stp + 1) [] ls
    else chopTr ei (stp + 1) (acc ++ [l]) ls

/-- The global steps in `(stp, stp + n]` at which an evaluation fires. -/
def evalSteps (ei : ℕ) : ℕ → ℕ → List ℕ
  | _, 0 => []
  | stp, n + 1 =>
    if (stp + 1) % ei = 0 then (stp + 1) :: evalSteps ei (stp + 1) n
    else evalSteps ei (stp + 1) n

/-- The event trace of one epoch of `n` batches starting at global step
`stp + 1`: per step the four training-batch events, then the evaluation
block when the step is a multiple of `eval_interval`. -/
def epochEvents (ei : ℕ) (vO : ℕ → List ℚ) : ℕ → ℕ → List Ev
  | _, 0 => []
  | stp, n + 1 =>
    (trainBatchEvents (stp + 1) ++
      (if (stp + 1) % ei = 0 then evalEvents (vO (stp + 1)) else [])) ++
      epochEvents ei vO (stp + 1) n

/-- Whether an event is one of the four training-batch actions of global
step `s`. -/
def isBatchEv (s : ℕ) : Ev → Bool
  | Ev.forward t => t == s
  | Ev.zeroGrad t => t == s
  | Ev.backward t => t == s
  | Ev.optStep t => t == s
  | _ => false

theorem adjustLR_curveTr (st : TrainState) : (adjustLR st).curveTr = st.curveTr := by
  unfold adjustLR
  split
  · dsimp only
    split <;> rfl
  · rfl

theorem adjustLR_curveVal (st : TrainState) : (adjustLR st).curveVal = st.curveVal := by
  unfold adjustLR
  split
  · dsimp only
    split <;> rfl
  · rfl

theorem adjustLR_events (st : TrainState) : (adjustLR st).events = st.events := by
  unfold adjustLR
  split
  · dsimp only
    split <;> rfl
  · rfl

theorem adjustLR_saved (st : TrainState) : (adjustLR st).saved = st.saved := by
  unfold adjustLR
  split
  · dsimp only
    split <;> rfl
  · rfl

theorem innerLoop_curveTr (ei : ℕ) (vO : ℕ → List ℚ) (ls : List ℚ) (st : TrainState) :
    (innerLoop ei vO st ls).curveTr = st.curveTr ++ chopTr ei st.step st.lossi ls := by
  induction ls generalizing st with
  | nil => simp [innerLoop, chopTr]
  | cons l ls ih =>
    rw [innerLoop, ih]
    by_cases h : (st.step + 1) % ei = 0
    · simp [runStep, chopTr, h]
    · simp [runStep, chopTr, h]

theorem innerLoop_curveVal (ei : ℕ) (vO : ℕ → List ℚ) (ls : List ℚ) (st : TrainState) :
    (innerLoop ei vO st ls).curveVal =
      st.curveVal ++ (evalSteps ei st.step ls.length).map (fun s => listMean (vO s)) := by
  induction ls generalizing st with
  | nil => simp [innerLoop, evalSteps]
  | cons l ls ih =>
    rw [innerLoop, ih]
    rw [List.length_cons, evalSteps]
    by_cases h : (st.step + 1) % ei = 0
    · simp [runStep, h]
    · simp [runStep, h]

theorem innerLoop_events (ei : ℕ) (vO : ℕ → List ℚ) (ls : List ℚ) (st : TrainState) :
    (innerLoop ei vO st ls).events = st.events ++ epochEvents ei vO st.step ls.length := by
  induction ls generalizing st with
  | nil => simp [innerLoop, epochEvents]
  | cons l ls ih =>
    rw [innerLoop, ih]
    rw [List.length_cons, epochEvents]
    by_cases h : (st.step + 1) % ei = 0
    · simp [runStep, h, evalEvents]
    · simp [runStep, h]

theorem innerLoop_saved (ei : ℕ) (vO : ℕ → List ℚ) (ls : List ℚ) (st : TrainState) :
    (innerLoop ei vO st ls).saved = st.saved := by
  induction ls generalizing st with
  | nil => rfl
  | cons l ls ih =>
    rw [innerLoop, ih]
    by_cases h : (st.step + 1) % ei = 0
    · simp [runStep, h]
    · simp [runStep, h]

theorem epochBody_saved (ei : ℕ) (vO : ℕ → List ℚ) (ls : List ℚ) (st : TrainState) :
    (epochBody ei vO ls st).saved = st.saved := by
  unfold epochBody
  rw [adjustLR_saved, innerLoop_saved]

theorem adjustLR_step (st : TrainState) : (adjustLR st).step = st.step := by
  unfold adjustLR
  split
  · dsimp only
    split <;> rfl
  · rfl

theorem innerLoop_step (ei : ℕ) (vO : ℕ → List ℚ) (ls : List ℚ) (st : TrainState) :
    (innerLoop ei vO st ls).step = st.step + ls.length := by
  induction ls generalizing st with
  | nil => rfl
  | cons l ls ih =>
    rw [innerLoop, ih]
    by_cases h : (st.step + 1) % ei = 0
    · simp [runStep, h]
      omega
    · simp [runStep, h]
      omega

/-- C3: at the end of each epoch (the `adjustLR` stage of `epochBody`), once
more than one training-loss point has been recorded, with
`indices_back = int(len(loss_curve_val) * 0.2) + 2`: when the most recent
validation loss divided by the validation loss `indices_back` back exceeds
0.996 every parameter group's learning rate is divided by 1.5, and otherwise
every group's learning rate is left unchanged. `hgroups` is the loop
invariant that every group carries the tracked learning rate. -/
theorem lr_decay_on_plateau (st : TrainState) (h1 : 1 < st.curveTr.length)
    (hgroups : ∀ g ∈ st.groups, g = st.lr) :
    ((0.996 < lastVal st.curveVal / lookback st.curveVal (st.curveVal.length / 5 + 2) →
      (adjustLR st).groups = st.groups.map (fun g => g / 1.5) ∧
        (adjustLR st).lr = st.lr / 1.5) ∧
      (¬ 0.996 < lastVal st.curveVal / lookback st.curveVal (st.curveVal.length / 5 + 2) →
        (adjustLR st).groups = st.groups ∧ (adjustLR st).lr = st.lr)) ∧
    (adjustLR st).indicesBack = st.curveVal.length / 5 + 2 := by
  unfold adjustLR
  rw [if_pos h1]
  dsimp only
  by_cases hr :
      0.996 < lastVal st.curveVal / lookback st.curveVal (st.curveVal.length / 5 + 2)
  · rw [if_pos hr]
    refine ⟨⟨fun _ => ⟨?_, rfl⟩, fun hc => absurd hr hc⟩, rfl⟩
    exact (List.map_congr_left (fun g hgm => by rw [hgroups g hgm])).symm
  · rw [if_neg hr]
    exact ⟨⟨fun hc => absurd hc hr, fun _ => ⟨rfl, rfl⟩⟩, rfl⟩

/-- Concrete state used by the C3 witness: two recorded points per curve,
learning rate 2 in both parameter groups. -/
def stW3 : TrainState :=
  ⟨0, [], [1, 1], [1, 1], 1, 2, [2, 2], 0, []⟩

/-- C3 witness: on `stW3` the validation ratio is `1 > 0.996`, so both
groups' learning rates are divided by 1.5. -/
theorem lr_decay_on_plateau_witness :
    (adjustLR stW3).groups = stW3.groups.map (fun g => g / 1.5) ∧
      (adjustLR stW3).lr = stW3.lr / 1.5 :=
  (lr_decay_on_plateau stW3 (by simp [stW3])
      (by intro g hgm; simp [stW3] at hgm ⊢; try exact hgm)).1.1
    (by simp [stW3, lastVal, lookback]; norm_num)

/-- C4: once at least two validation losses have been recorded, the loop
guard holds iff the most recent validation loss over the lookback validation
loss (`indices_back` entries back) is below 0.998 and the learning rate is
above `minimal_lr`; and every terminating run of the `while` loop performs
exactly one checkpoint save, on exit. -/
theorem loop_guard_and_single_save (mlr : ℚ) (st : TrainState)
    (h : 2 ≤ st.curveVal.length) :
    (loopCond mlr st = true ↔
      (lastVal st.curveVal / lookback st.curveVal st.indicesBack < 0.998 ∧
        mlr < st.lr)) ∧
    (∀ ei vO epochs fuel e s0 s1, Train ei vO epochs mlr fuel e s0 = some s1 →
      s1.saved = s0.saved + 1) := by
  constructor
  · unfold loopCond
    have h2 : ¬ st.curveVal.length < 2 := by omega
    simp [h2]
  · intro ei vO epochs fuel
    induction fuel with
    | zero =>
      intro e s0 s1 hT
      exact absurd hT (by simp [Train])
    | succ n ih =>
      intro e s0 s1 hT
      rw [Train] at hT
      by_cases hc : loopCond mlr s0 = true
      · rw [if_pos hc] at hT
        rw [ih (e + 1) (epochBody ei vO (epochs e) s0) s1 hT, epochBody_saved]
      · rw [if_neg hc] at hT
        cases hT
        rfl

/-- Concrete state used by the C4 witness: two equal validation losses (ratio
1, not below 0.998), learning rate equal to `minimal_lr = 1`. -/
def stC4 : TrainState :=
  ⟨0, [], [], [1, 1], 1, 1, [1], 0, []⟩

/-- C4 witness: on `stC4` with `minimal_lr = 1`, the guard is false and a
one-epoch-fuel run exits immediately with exactly one save. -/
theorem loop_guard_and_single_save_witness :
    ({ stC4 with saved := stC4.saved + 1 } : TrainState).saved = stC4.saved + 1 ∧
    (loopCond 1 stC4 = true ↔
      (lastVal stC4.curveVal / lookback stC4.curveVal stC4.indicesBack < 0.998 ∧
        (1 : ℚ) < stC4.lr)) := by
  have hb : decide ((1 : ℚ) < stC4.lr) = false := decide_eq_false (by norm_num [stC4])
  have hc : loopCond 1 stC4 = false := by
    unfold loopCond
    rw [hb, Bool.and_false, Bool.or_false]
    rfl
  have htr : Train 1 (fun _ => []) (fun _ => []) 1 (0 + 1) 0 stC4 =
      some { stC4 with saved := stC4.saved + 1 } := by
    rw [Train, if_neg (by simp [hc])]
  exact ⟨(loop_guard_and_single_save 1 stC4 (by simp [stC4])).2
      1 (fun _ => []) (fun _ => []) (0 + 1) 0 stC4 _ htr,
    (loop_guard_and_single_save 1 stC4 (by simp [stC4])).1⟩

theorem isBatchEv_trainBatchEvents (s t : ℕ) (hne : t ≠ s) :
    ∀ e ∈ trainBatchEvents t, isBatchEv s e = false := by
  intro e he
  simp only [trainBatchEvents, List.mem_cons, List.mem_singleton] at he
  rcases he with h | h | h | h | h <;> first
    | (subst h; simp [isBatchEv, hne])
    | simp at h

theorem isBatchEv_evalEvents (s : ℕ) (vls : List ℚ) :
    ∀ e ∈ evalEvents vls, isBatchEv s e = false := by
  intro e he
  simp only [evalEvents, List.mem_append, List.mem_cons, List.mem_singleton,
    List.mem_map, List.not_mem_nil, or_false] at he
  rcases he with (h | ⟨v, hv, h⟩) | h <;> subst h <;> rfl

theorem isBatchEv_epochEvents_of_le (ei : ℕ) (vO : ℕ → List ℚ) (s : ℕ) :
    ∀ n stp, s ≤ stp → ∀ e ∈ epochEvents ei vO stp n, isBatchEv s e = false := by
  intro n
  induction n with
  | zero =>
    intro stp hle e he
    simp [epochEvents] at he
  | succ m ih =>
    intro stp hle e he
    rw [epochEvents] at he
    rcases List.mem_append.mp he with h | h
    · rcases List.mem_append.mp h with h1 | h1
      · exact isBatchEv_trainBatchEvents s (stp + 1) (by omega) e h1
      · by_cases hm : (stp + 1) % ei = 0
        · rw [if_pos hm] at h1
          exact isBatchEv_evalEvents s _ e h1
        · rw [if_neg hm] at h1
          simp at h1
    · exact ih (stp + 1) (by omega) e h

theorem epochEvents_split (ei : ℕ) (vO : ℕ → List ℚ) (s : ℕ) :
    ∀ n stp, stp < s → s ≤ stp + n →
      ∃ pre post, epochEvents ei vO stp n = pre ++ trainBatchEvents s ++ post ∧
        (∀ e ∈ pre, isBatchEv s e = false) ∧
        (∀ e ∈ post, isBatchEv s e = false) := by
  intro n
  induction n with
  | zero =>
    intro stp hl hu
    omega
  | succ m ih =>
    intro stp hl hu
    by_cases hs : s = stp + 1
    · subst hs
      refine ⟨[],
        (if (stp + 1) % ei = 0 then evalEvents (vO (stp + 1)) else []) ++
          epochEvents ei vO (stp + 1) m, ?_, by simp, ?_⟩
      · rw [epochEvents]
        simp [List.append_assoc]
      · intro e he
        rcases List.mem_append.mp he with h | h
        · by_cases hm : (stp + 1) % ei = 0
          · rw [if_pos hm] at h
            exact isBatchEv_evalEvents _ _ e h
          · rw [if_neg hm] at h
            simp at h
        · exact isBatchEv_epochEvents_of_le ei vO (stp + 1) m (stp + 1) le_rfl e h
    · rcases ih (stp + 1) (by omega) (by omega) with ⟨pre, post, heq, hpre, hpost⟩
      refine ⟨(trainBatchEvents (stp + 1) ++
          (if (stp + 1) % ei = 0 then evalEvents (vO (stp + 1)) else [])) ++ pre,
        post, ?_, ?_, hpost⟩
      · rw [epochEvents, heq]
        simp [List.append_assoc]
      · intro e he
        rcases List.mem_append.mp he with h | h
        · rcases List.mem_append.mp h with h1 | h1
          · exact isBatchEv_trainBatchEvents s (stp + 1) (by omega) e h1
          · by_cases hm : (stp + 1) % ei = 0
            · rw [if_pos hm] at h1
              exact isBatchEv_evalEvents s _ e h1
            · rw [if_neg hm] at h1
              simp at h1
        · exact hpre e h

/-- C7: for every batch of an epoch (the one at global step `s`), the event
trace contains exactly one forward pass, then one `zero_grad`, then one
backward pass, then one optimizer step, in that order, and no other action of
that batch occurs anywhere else in the trace — in particular the optimizer is
never stepped on a batch without the preceding backward pass on that batch's
loss. -/
theorem train_batch_order (ei : ℕ) (vO : ℕ → List ℚ) (ls : List ℚ)
    (st : TrainState) (s : ℕ) (h1 : st.step < s) (h2 : s ≤ st.step + ls.length)
    (h3 : ∀ e ∈ st.events, isBatchEv s e = false) :
    ∃ pre post,
      (innerLoop ei vO st ls).events =
        pre ++ [Ev.forward s, Ev.zeroGrad s, Ev.backward s, Ev.optStep s] ++ post ∧
      (∀ e ∈ pre, isBatchEv s e = false) ∧
      (∀ e ∈ post, isBatchEv s e = false) := by
  rcases epochEvents_split ei vO s ls.length st.step h1 h2 with
    ⟨pre, post, heq, hpre, hpost⟩
  refine ⟨st.events ++ pre, post, ?_, ?_, hpost⟩
  · rw [innerLoop_events, heq]
    simp [trainBatchEvents, List.append_assoc]
  · intro e he
    rcases List.mem_append.mp he with h | h
    · exact h3 e h
    · exact hpre e h

/-- The initial state of `Train` (lines 22-28): empty curves and trace,
`indices_back = 1`, one parameter group at the initial learning rate. -/
def stInit : TrainState :=
  ⟨0, [], [], [], 1, 1, [1], 0, []⟩

/-- C7 witness: a two-batch epoch from the initial state contains the four
ordered actions of the batch at global step 1 and nothing else of that
batch. -/
theorem train_batch_order_witness :
    ∃ pre post,
      (innerLoop 2 (fun _ => [1]) stInit [1, 3]).events =
        pre ++ [Ev.forward 1, Ev.zeroGrad 1, Ev.backward 1, Ev.optStep 1] ++ post ∧
      (∀ e ∈ pre, isBatchEv 1 e = false) ∧
      (∀ e ∈ post, isBatchEv 1 e = false) :=
  train_batch_order 2 (fun _ => [1]) [1, 3] stInit 1
    (by simp [stInit]) (by simp [stInit]) (by simp [stInit])

/-- C6 (amended): one epoch appends, at every global step divisible by
`eval_interval`, one point to each curve: the validation point is the
arithmetic mean of that evaluation's per-batch validation losses, and the
training point is the mean of the training losses accumulated since the
previous evaluation or the start of the current epoch, whichever is later
(`chopTr` starts from the empty accumulator `epochBody` resets and restarts
it after every evaluation); each evaluation's events are `m.eval()`, the
validation passes with gradients disabled, `m.train()`. -/
theorem eval_appends_means (ei : ℕ) (vO : ℕ → List ℚ) (ls : List ℚ)
    (st : TrainState) :
    (epochBody ei vO ls st).curveTr = st.curveTr ++ chopTr ei st.step [] ls ∧
    (epochBody ei vO ls st).curveVal =
      st.curveVal ++ (evalSteps ei st.step ls.length).map (fun s => listMean (vO s)) ∧
    (epochBody ei vO ls st).events = st.events ++ epochEvents ei vO st.step ls.length ∧
    (∀ vls : List ℚ, evalEvents vls =
      [Ev.setEval] ++ vls.map (fun v => Ev.valForward v false) ++ [Ev.setTrain]) := by
  refine ⟨?_, ?_, ?_, fun _ => rfl⟩
  · unfold epochBody
    rw [adjustLR_curveTr, innerLoop_curveTr]
  · unfold epochBody
    rw [adjustLR_curveVal, innerLoop_curveVal]
  · unfold epochBody
    rw [adjustLR_events, innerLoop_events]

/-- C6 (claim side, modelled from the claim's words, not from the source):
the training-curve point appended at the k-th evaluation would be the mean of
all training losses accumulated since the previous evaluation, across epoch
boundaries — the k-th chunk of `eval_interval` consecutive batch losses of
the whole run. -/
def claimTrCurve (ei : ℕ) (allLosses : List ℚ) : List ℚ :=
  (List.range (allLosses.length / ei)).map
    (fun k => listMean ((allLosses.drop (k * ei)).take ei))

/-- C6 counterexample: `eval_interval = 2`, three-batch epochs. In the first
epoch (losses 1, 1, 5) an evaluation fires at global step 2 — so `loss_val`
is assigned before the end-of-epoch print at train.py line 67 and the run is
crash-free — and appends `mean [1,1] = 1`; the step-3 loss 5 sits in the
accumulator when the epoch ends and is cleared at the epoch boundary
(line 34). The next evaluation, at global step 4 (first batch of the second
epoch, losses 3, 3, 3), therefore appends `mean [3] = 3`, while the claim as
stated predicts the mean of the losses since the previous evaluation,
`mean [5,3] = 4`: the code's curve is `[1,3,3]`, the claim's `[1,4,3]`. -/
theorem eval_appends_means_counterexample :
    (epochBody 2 (fun _ => [1]) [1, 1, 5] stInit).curveTr = [1] ∧
    (epochBody 2 (fun _ => [1]) [3, 3, 3]
        (epochBody 2 (fun _ => [1]) [1, 1, 5] stInit)).curveTr = [1, 3, 3] ∧
    claimTrCurve 2 [1, 1, 5, 3, 3, 3] = [1, 4, 3] ∧
    ([1, 3, 3] : List ℚ) ≠ [1, 4, 3] := by
  have hstep : (epochBody 2 (fun _ => [1]) [1, 1, 5] stInit).step = 3 := by
    rw [epochBody, adjustLR_step, innerLoop_step]
    simp [stInit]
  have hcurve : (epochBody 2 (fun _ => [1]) [1, 1, 5] stInit).curveTr = [1] := by
    rw [epochBody, adjustLR_curveTr, innerLoop_curveTr]
    simp [stInit, chopTr, listMean]
  refine ⟨hcurve, ?_, ?_, by norm_num⟩
  · rw [epochBody, adjustLR_curveTr, innerLoop_curveTr]
    simp only [TrainState.curveTr, hcurve, hstep]
    simp [chopTr, listMean]
  · simp [claimTrCurve, listMean, List.range_succ]
    norm_num

end HGPT
